import Mathlib

/-!
Shallow embedding of the view-selection heuristic of `heuristic.cpp`
(mesh-reconstruction repository).

Machine floats are modelled by `ℚ` (exact arithmetic; note that Lean's
`ℚ` division is total with `x / 0 = 0`, while C floats produce
`inf`/`nan` — every theorem below whose truth depends on a division
keeps its divisors away from the degenerate case or discusses it
explicitly).  External collaborators (the FLANN spatial index, the
renderer, `extractCameraCenter` from `recon.hpp`, the random stream)
are modelled as inputs: their outputs are universally quantified data.
-/

namespace MeshRecon

/-- `pow2` from heuristic.cpp: squaring helper. -/
def pow2 (x : ℚ) : ℚ := x * x

/-- `focal` from heuristic.cpp: `const float focal = 0.5`. -/
def focal : ℚ := 1/2

/-- `compact` from heuristic.cpp: compacts two indices into a single
hash-table key, `(unsigned(i) << 16) + unsigned(j)`.  The C parameters
are `unsigned short`, so an `int` argument is reduced mod 2^16 first. -/
def compact (i j : Int) : Nat :=
  (i % 65536).toNat * 65536 + (j % 65536).toNat

/-- `bisect` from heuristic.cpp: linear scan returning `i-1` for the
first `i` with `list[i] > choice`, and `list.size()` if none exists. -/
def bisect (list : List ℚ) (choice : ℚ) : Int :=
  match list.findIdx? (fun x => choice < x) with
  | some i => (i : Int) - 1
  | none => (list.length : Int)

/-- Cumulative sums starting from `t`: models the in-loop construction
`weightSum[i+1] = weightSum[i] + weight`. -/
def cumFrom (t : ℚ) : List ℚ → List ℚ
  | [] => []
  | w :: ws => (t + w) :: cumFrom (t + w) ws

/-- The `weightSum` array of `chooseMain`/`chooseSide`:
`[0, w₁, w₁+w₂, …]`. -/
def cumSums (ws : List ℚ) : List ℚ := 0 :: cumFrom 0 ws

/-- `CameraLabel` from heuristic.cpp. -/
structure Label where
  index : Int
  cosFromViewer : ℚ
  distance : ℚ
  viewX : ℚ
  viewY : ℚ
deriving DecidableEq, Repr

/-- `dummyLabel` from heuristic.cpp: `{-1, 0, 0}` (remaining aggregate
fields zero-initialized). -/
def dummyLabel : Label := ⟨-1, 0, 0, 0, 0⟩

/-- The vote table `std::map<unsigned, float> weights`.  `val` is the
stored value (unwritten keys read as the value-initialized `0.0`,
exactly what `operator[]` inserts), `dom` tracks key presence, which
`weights.count` queries. -/
structure WTable where
  val : Nat → ℚ
  dom : Nat → Bool

/-- The empty vote table built at the start of `chooseCameras`. -/
def WTable.empty : WTable := ⟨fun _ => 0, fun _ => false⟩

/-- `weights[k]` read through `operator[]`: inserts the key (with the
default `0.0` value, which `val` already reports) if absent. -/
def WTable.touch (w : WTable) (k : Nat) : WTable :=
  ⟨w.val, fun x => if x = k then true else w.dom x⟩

/-- `weights[k] = v`: write through `operator[]`. -/
def WTable.setv (w : WTable) (k : Nat) (v : ℚ) : WTable :=
  ⟨fun x => if x = k then v else w.val x,
   fun x => if x = k then true else w.dom x⟩

/-- The unboosted main-camera weight `cosFromViewer / distance²`
accumulated into `outWeightSum`. -/
def mainBaseWeight (l : Label) : ℚ := l.cosFromViewer / pow2 l.distance

/-- The (possibly boosted) main-camera draw weight: boosted by
`weight * boostFactor * filteredCameras.size()` when this camera's
diagonal "seen" key is present in the table. -/
def mainBoostedWeight (w : WTable) (boost : ℚ) (n : Nat) (l : Label) : ℚ :=
  let base := mainBaseWeight l
  if w.dom (compact l.index l.index) then base + base * boost * n else base

/-- The `outWeightSum` output parameter of `chooseMain`: the sum of
the unboosted weights. -/
def mainOutSum (cams : List Label) : ℚ := (cams.map mainBaseWeight).sum

/-- The cumulative `weightSum` array of `chooseMain`. -/
def mainCum (w : WTable) (boost : ℚ) (cams : List Label) : List ℚ :=
  cumSums (cams.map (mainBoostedWeight w boost cams.length))

/-- `chooseMain` from heuristic.cpp.  The random draw
`cv::randu<float>()` is the explicit argument `r`.  Returns the chosen
label (or `none` where the C code has undefined behaviour: the empty
candidate set asserted against, or `filteredCameras[index]` indexed out
of range) together with the unboosted weight sum output parameter. -/
def chooseMain (w : WTable) (cams : List Label) (boost : ℚ) (r : ℚ) :
    Option Label × ℚ :=
  if cams.length = 0 then (none, 0)
  else
    let cum := mainCum w boost cams
    let choice := r * cum.getLastD 0
    let idx := bisect cum choice
    if 0 ≤ idx ∧ idx.toNat < cams.length then
      (some (cams.getD idx.toNat dummyLabel), mainOutSum cams)
    else (none, mainOutSum cams)

/-- The unboosted side-camera weight
`cosFromViewer * parallaxSqr / distance²` with
`parallaxSqr = ((Δx)² + (Δy)²) / focal`. -/
def sideBaseWeight (m l : Label) : ℚ :=
  let parallaxSqr := (pow2 (l.viewX - m.viewX) + pow2 (l.viewY - m.viewY)) / focal
  l.cosFromViewer * parallaxSqr / pow2 l.distance

/-- The (possibly boosted) side-camera draw weight: boosted when the
pair key is present with accumulated vote ≥ 1. -/
def sideBoostedWeight (w : WTable) (m : Label) (boost : ℚ) (n : Nat) (l : Label) : ℚ :=
  let base := sideBaseWeight m l
  if w.dom (compact m.index l.index) ∧ 1 ≤ w.val (compact m.index l.index) then
    base + base * boost * n
  else base

/-- The `labels` vector of `chooseSide`: every candidate except the
main camera, in filtered order. -/
def sideLabels (m : Label) (cams : List Label) : List Label :=
  cams.filter (fun l => l.index ≠ m.index)

/-- `actualWeightSum` of `chooseSide`: the sum of the unmodified side
weights. -/
def sideActualWeightSum (m : Label) (cams : List Label) : ℚ :=
  ((sideLabels m cams).map (sideBaseWeight m)).sum

/-- The cumulative `weightSum` array of `chooseSide`. -/
def sideCum (w : WTable) (m : Label) (boost : ℚ) (cams : List Label) : List ℚ :=
  cumSums ((sideLabels m cams).map (sideBoostedWeight w m boost cams.length))

/-- `chooseSide` from heuristic.cpp.  `r` is the random draw.  `none`
models the aborting paths (the entry assertion `size > 1`, and the
index assertion `index >= 0 && index < i` after the draw); `some
dummyLabel` is the explicit no-selection return; `some l` with
`l.index ≠ -1` is an accepted pair.  The updated vote table is
returned alongside. -/
def chooseSide (w : WTable) (m : Label) (threshold boost : ℚ)
    (cams : List Label) (r : ℚ) : Option Label × WTable :=
  if cams.length ≤ 1 then (none, w)
  else
    let labels := sideLabels m cams
    let cum := sideCum w m boost cams
    let choice := r * cum.getLastD 0
    let idx := bisect cum choice
    if 0 ≤ idx ∧ idx.toNat < labels.length then
      let lab := labels.getD idx.toNat dummyLabel
      let ck := compact m.index lab.index
      if 1 ≤ w.val ck then (some dummyLabel, w.touch ck)
      else
        let w1 := (w.touch ck).setv (compact m.index m.index) 1
        let addWeight := (cum.getD (idx.toNat + 1) 0 - cum.getD idx.toNat 0) /
          (threshold * sideActualWeightSum m cams)
        let w2 := w1.setv ck (w1.val ck + addWeight)
        if 1 ≤ w2.val ck then (some lab, w2) else (some dummyLabel, w2)
    else (none, w)

/-- `myFind` on a `numberedVector` list from heuristic.cpp: index of the
first entry whose `.first` equals `index`, or `-1`. -/
def myFindNV (list : List (Int × List Int)) (index : Int) : Int :=
  match list.findIdx? (fun e => e.1 = index) with
  | some i => (i : Int)
  | none => -1

/-- `myFind` on an integer vector from heuristic.cpp. -/
def myFindI (list : List Int) (index : Int) : Int :=
  match list.findIdx? (fun e => e = index) with
  | some i => (i : Int)
  | none => -1

/-- The bundle-table insertion of `chooseCameras` (lines 474-479):
create the main's entry if absent, else append the side camera only if
not already present under that main. -/
def insertPair (table : List (Int × List Int)) (m s : Int) :
    List (Int × List Int) :=
  let pos := myFindNV table m
  if pos = -1 then table ++ [(m, [s])]
  else
    let e := table.getD pos.toNat (0, [])
    if myFindI e.2 s = -1 then table.set pos.toNat (e.1, e.2 ++ [s])
    else table

/-- `shotCount = 200` from `chooseCameras`. -/
def shotCount : Nat := 200

/-- One trial of the selection loop, as seen by the sampler: the
visibility-filtered camera list produced by the external render +
`filterCameras` for the sampled surface point, and the two uniform
draws consumed by `chooseMain` and `chooseSide`. -/
structure Shot where
  cams : List Label
  rMain : ℚ
  rSide : ℚ

/-- Configuration-derived scalars of one `chooseCameras` run:
`config->cameraThreshold` and the precomputed `samplingResolution`. -/
structure RunParams where
  cameraThreshold : ℚ
  samplingRes : ℚ

/-- The mutable state of one `chooseCameras` run: the vote table, the
bundle table `chosenCameras`, and the accepted-pair count. -/
structure RunState where
  weights : WTable
  chosen : List (Int × List Int)
  count : Nat

/-- State at the top of a `chooseCameras` run. -/
def initState : RunState := ⟨WTable.empty, [], 0⟩

/-- One iteration of the 200-shot loop of `chooseCameras` (lines
450-483): if at least two cameras passed the visibility filter, draw a
main and then a side camera; a returned `dummyLabel` records no pair,
otherwise the count is bumped and the pair inserted.  `none` models the
aborting paths inside the two draws. -/
def runStep (p : RunParams) (s : RunState) (shot : Shot) : Option RunState :=
  if 2 ≤ shot.cams.length then
    match chooseMain s.weights shot.cams p.cameraThreshold shot.rMain with
    | (none, _) => none
    | (some mc, mws) =>
      match chooseSide s.weights mc (shotCount * mws / p.samplingRes)
          (p.cameraThreshold / 10) shot.cams shot.rSide with
      | (none, _) => none
      | (some sl, w') =>
        if sl.index = dummyLabel.index then some ⟨w', s.chosen, s.count⟩
        else some ⟨w', insertPair s.chosen mc.index sl.index, s.count + 1⟩
  else some s

/-- The `(main, side)` pair accepted at one shot, if any (the pair whose
insertion `runStep` performs); defined alongside `runStep` so theorems
can speak about individual draws. -/
def acceptedPair (p : RunParams) (s : RunState) (shot : Shot) :
    Option (Int × Int) :=
  if 2 ≤ shot.cams.length then
    match chooseMain s.weights shot.cams p.cameraThreshold shot.rMain with
    | (none, _) => none
    | (some mc, mws) =>
      match chooseSide s.weights mc (shotCount * mws / p.samplingRes)
          (p.cameraThreshold / 10) shot.cams shot.rSide with
      | (none, _) => none
      | (some sl, _) =>
        if sl.index = dummyLabel.index then none else some (mc.index, sl.index)
  else none

/-- The selection loop folded from an arbitrary start state. -/
def runFrom (p : RunParams) (s : RunState) (shots : List Shot) :
    Option RunState :=
  shots.foldl (fun os sh => os.bind (fun st => runStep p st sh)) (some s)

/-- The full 200-shot loop state evolution of `chooseCameras`. -/
def runShots (p : RunParams) (shots : List Shot) : Option RunState :=
  runFrom p initState shots

/-- The final `std::sort(chosenCameras.begin(), .end())`.  The pair
ordering is lexicographic; entries produced by `insertPair` have
pairwise distinct main indices, so sorting by the main index alone is
the same permutation. -/
def sortTable (t : List (Int × List Int)) : List (Int × List Int) :=
  t.mergeSort (fun a b => a.1 ≤ b.1)

/-- `Heuristic::chooseCameras`, reduced to its sampler core: the face
sampling / rendering / visibility filtering of each trial is external
and enters through the `Shot` list.  Returns the accepted-pair count
and the sorted bundle table. -/
def chooseCameras (p : RunParams) (shots : List Shot) :
    Option (Nat × List (Int × List Int)) :=
  (runShots p shots).map (fun s => (s.count, sortTable s.chosen))

/-- Modelled from the spec: `Heuristic::sentinel` is declared in
`recon.hpp`, which is not part of the sources; the spec only requires a
reserved "no further element" value, and the iterator theorems below do
not depend on the concrete choice. -/
def sentinel : Int := -1

/-- The wanna-be-iterator state inside `Heuristic`: the bundle table
and the two cursor fields `mainIdx`, `sideIdx`. -/
structure IterState where
  chosenCameras : List (Int × List Int)
  mainIdx : Nat
  sideIdx : Nat

/-- `Heuristic::beginMain`. -/
def beginMain (s : IterState) : Int × IterState :=
  if s.chosenCameras.length = 0 then (sentinel, s)
  else ((s.chosenCameras.getD 0 (0, [])).1, { s with mainIdx := 0 })

/-- `Heuristic::nextMain` (the increment of `mainIdx` happens in both
branches, as `++mainIdx` is evaluated before the comparison). -/
def nextMain (s : IterState) : Int × IterState :=
  let m := s.mainIdx + 1
  if m < s.chosenCameras.length then
    ((s.chosenCameras.getD m (0, [])).1, { s with mainIdx := m })
  else (sentinel, { s with mainIdx := m })

/-- `Heuristic::beginSide`.  The C code reads `chosenCameras[mainIdx]`
unchecked; the model uses `getD`, which agrees whenever `mainIdx` is in
range (the hypothesis under which the iterator theorems are stated). -/
def beginSide (s : IterState) (imain : Int) : Int × IterState :=
  let e := s.chosenCameras.getD s.mainIdx (0, [])
  if imain ≠ e.1 ∨ e.2.length = 0 then (sentinel, s)
  else (e.2.getD 0 0, { s with sideIdx := 0 })

/-- `Heuristic::nextSide` (short-circuit: on a mismatched `imain` the
`++sideIdx` is not evaluated). -/
def nextSide (s : IterState) (imain : Int) : Int × IterState :=
  let e := s.chosenCameras.getD s.mainIdx (0, [])
  if imain ≠ e.1 then (sentinel, s)
  else
    let k := s.sideIdx + 1
    if e.2.length ≤ k then (sentinel, { s with sideIdx := k })
    else (e.2.getD k 0, { s with sideIdx := k })

/-! ### Visibility filter (`filterCameras`) -/

/-- A homogeneous 4-vector (one row of a 1×4 `cv::Mat`). -/
structure Vec4 where
  x : ℚ
  y : ℚ
  z : ℚ
  w : ℚ
deriving DecidableEq, Repr

/-- `v /= v[3]`: component-wise perspective divide as performed on
`cameraFromViewer` and `viewerFromCamera`. -/
def persDiv (v : Vec4) : Vec4 := ⟨v.x / v.w, v.y / v.w, v.z / v.w, v.w / v.w⟩

/-- The depth buffer returned by the external renderer.  `background`
is `backgroundDepth`, declared in `recon.hpp` (external constant). -/
structure DepthBuf where
  rows : Int
  cols : Int
  data : Int → Int → ℚ
  background : ℚ

/-- C float-to-int conversion: truncation toward zero. -/
def truncToInt (q : ℚ) : Int := if q < 0 then -(⌊-q⌋) else ⌊q⌋

/-- The normalized camera-from-viewer coordinates (`cfv` after the
divide). -/
def cfvOf (cfvRaw : Vec4) : Vec4 := persDiv cfvRaw

/-- Test 1 of `filterCameras`: `cfv[2] > 1 || cfv[2] < -1`. -/
def zRejected (cfvRaw : Vec4) : Bool :=
  decide (1 < (cfvOf cfvRaw).z ∨ (cfvOf cfvRaw).z < -1)

/-- `int row = (cfv[1] + 1) * depth.rows / 2`. -/
def rowPix (d : DepthBuf) (cfvRaw : Vec4) : Int :=
  truncToInt (((cfvOf cfvRaw).y + 1) * d.rows / 2)

/-- `int col = (cfv[0] + 1) * depth.cols / 2`. -/
def colPix (d : DepthBuf) (cfvRaw : Vec4) : Int :=
  truncToInt (((cfvOf cfvRaw).x + 1) * d.cols / 2)

/-- Test 2 of `filterCameras`, exactly as written in the source:
`row < 0 || row >= depth.rows || col < 0 || col > depth.cols`. -/
def boundsRejected (d : DepthBuf) (cfvRaw : Vec4) : Bool :=
  decide (rowPix d cfvRaw < 0 ∨ d.rows ≤ rowPix d cfvRaw ∨
    colPix d cfvRaw < 0 ∨ d.cols < colPix d cfvRaw)

/-- In-bounds predicate for a `depth.at<float>(row, col)` access. -/
def depthInBounds (d : DepthBuf) (row col : Int) : Prop :=
  0 ≤ row ∧ row < d.rows ∧ 0 ≤ col ∧ col < d.cols

/-- Test 3 of `filterCameras`: the occlusion test, which reads the
depth buffer at `(rowPix, colPix)`. -/
def occlusionRejected (d : DepthBuf) (cfvRaw : Vec4) : Bool :=
  let od := d.data (rowPix d cfvRaw) (colPix d cfvRaw)
  decide (od ≠ d.background ∧ od ≤ (cfvOf cfvRaw).z)

/-- `label.distance = vfc[3] / viewerCenter.at<float>(3)`. -/
def axialDistance (viewerCenterW : ℚ) (vfcRaw : Vec4) : ℚ :=
  vfcRaw.w / viewerCenterW

/-- Test 5 of `filterCameras`: field-of-view test on the normalized
viewer-from-camera coordinates. -/
def fovRejected (vfcRaw : Vec4) : Bool :=
  let vfc := persDiv vfcRaw
  decide (vfc.x < -1 ∨ 1 < vfc.x ∨ vfc.y < -1 ∨ 1 < vfc.y)

/-- Outcome of the per-camera test chain of `filterCameras`. -/
inductive CamCheck where
  | rejectedZ
  | rejectedBounds
  | rejectedOcclusion
  | rejectedBehind
  | rejectedFov
  | accepted (l : Label)
deriving DecidableEq, Repr

/-- The per-camera body of `filterCameras`.  `cfvRaw` is
`viewer * extractCameraCenter(camera)` and `vfcRaw` is
`camera * extractCameraCenter(viewer)` (the two products involve only
external matrix data, so they enter as inputs); `viewerCenterW` is the
fourth component of `extractCameraCenter(viewer)`.  `rsqrt`
parametrizes the external `sqrt` used for `cosFromViewer` (irrational
over `ℚ`). -/
def checkCamera (rsqrt : ℚ → ℚ) (i : Int) (d : DepthBuf) (viewerCenterW : ℚ)
    (cfvRaw vfcRaw : Vec4) : CamCheck :=
  if zRejected cfvRaw then .rejectedZ
  else if boundsRejected d cfvRaw then .rejectedBounds
  else if occlusionRejected d cfvRaw then .rejectedOcclusion
  else if axialDistance viewerCenterW vfcRaw < 0 then .rejectedBehind
  else if fovRejected vfcRaw then .rejectedFov
  else
    let cfv := cfvOf cfvRaw
    .accepted ⟨i,
      rsqrt (1 / (1 + (cfv.x * cfv.x + cfv.y * cfv.y) / (focal * focal))),
      axialDistance viewerCenterW vfcRaw, cfv.x, cfv.y⟩

/-- `filterCameras`: collects the accepted labels in camera order. -/
def filterCameras (rsqrt : ℚ → ℚ) (d : DepthBuf) (viewerCenterW : ℚ)
    (cams : List (Vec4 × Vec4)) : List Label :=
  cams.enum.foldr (fun e acc =>
    match checkCamera rsqrt e.1 d viewerCenterW e.2.1 e.2.2 with
    | .accepted l => l :: acc
    | _ => acc) []

/-! ### Density filtering (`Heuristic::filterPoints`)

The neighbor table built by the FLANN radius search (an external
collaborator) enters as the input `nbrs`: `nbrs[i]` is the list of
stored `(neighbor index, densityFn weight)` pairs of point `i` (the
code stores only neighbors with smaller index).  The flattened
`neighborBlocks`/`neighbors` representation is one-to-one with this
list of per-point slices. -/

/-- Mutable state of one scoring pass: the `score` array and the
running total `sum`. -/
structure PassState where
  score : Nat → ℚ
  total : ℚ

/-- Inner loop of the scoring pass over the neighbor slice of point
`i`: accumulates `densityTemp`, pushes `density[i]*w` to each
neighbor's score, and adds `(density[i]+density[j])*w` to the total. -/
def scoreInner (density : Nat → ℚ) (i : Nat) (lst : List (Nat × ℚ))
    (st : ℚ × PassState) : ℚ × PassState :=
  lst.foldl (fun a e =>
    (a.1 + density e.1 * e.2,
     ⟨Function.update a.2.score e.1 (a.2.score e.1 + density i * e.2),
      a.2.total + (density i + density e.1) * e.2⟩)) st

/-- The body of the scoring pass for one point `i`: run the inner loop
over `i`'s neighbor slice, then `score[i] += densityTemp`. -/
def passStep (nbrs : List (List (Nat × ℚ))) (density : Nat → ℚ)
    (st : PassState) (i : Nat) : PassState :=
  let r := scoreInner density i (nbrs.getD i []) (0, st)
  ⟨Function.update r.2.score i (r.2.score i + r.1), r.2.total⟩

/-- One full scoring pass (the body of the `do` loop before
normalization): scores start from zero each round. -/
def scorePass (nbrs : List (List (Nat × ℚ))) (n : Nat) (density : Nat → ℚ) :
    PassState :=
  (List.range n).foldl (passStep nbrs density) ⟨fun _ => 0, 0⟩

/-- The clamping `if (normalizedDensity > 2.) normalizedDensity = 2.`. -/
def clamp2 (x : ℚ) : ℚ := if 2 < x then 2 else x

/-- Normalization step: `normalizer = pointCount / sum`, clamped
per-point density update, and the mean squared change. -/
def densityStep (n : Nat) (ps : PassState) (density : Nat → ℚ) :
    (Nat → ℚ) × ℚ :=
  let normalizer : ℚ := n / ps.total
  let d' := fun i => clamp2 (ps.score i * normalizer)
  (d', ((List.range n).foldl (fun c i => c + pow2 (density i - d' i)) 0) / n)

/-- `change > 1e-6` convergence threshold (the C literal `1e-6`). -/
def convergenceEps : ℚ := 1/1000000

/-- The `do … while (change > 1e-6 && densityIterationNo < 200)` loop,
with the iteration budget as fuel (200 at the top call).  Returns the
final density together with the raw scores of the last pass, which is
what the greedy selection below reads. -/
def densityLoop (nbrs : List (List (Nat × ℚ))) (n : Nat) :
    Nat → (Nat → ℚ) → ((Nat → ℚ) × (Nat → ℚ))
  | 0, density => (density, fun _ => 0)
  | fuel + 1, density =>
    let ps := scorePass nbrs n density
    let r := densityStep n ps density
    if convergenceEps < r.2 ∧ 0 < fuel then densityLoop nbrs n fuel r.1
    else (r.1, ps.score)

/-- `densityLimit = .7`. -/
def densityLimit : ℚ := 7/10

/-- `cv::sortIdx(density, order, SORT_DESCENDING)`: the point indices
sorted by descending density (OpenCV does not pin the tie order; the
stable mergeSort determinizes it, and no theorem below depends on the
tie order). -/
def sortIdxDesc (density : Nat → ℚ) (n : Nat) : List Nat :=
  (List.range n).mergeSort (fun a b => decide (density b ≤ density a))

/-- One iteration of the greedy selection loop (lines 149-163): a
point with score below the limit is skipped, otherwise its density
weight is subtracted from its stored neighbors' scores and its index is
kept (the in-place `order[writeIndex]` compaction is the kept list). -/
def greedyStep (nbrs : List (List (Nat × ℚ))) (density : Nat → ℚ)
    (st : (Nat → ℚ) × List Nat) (ord : Nat) : (Nat → ℚ) × List Nat :=
  if st.1 ord < densityLimit then st
  else
    ((nbrs.getD ord []).foldl
      (fun sc e => Function.update sc e.1 (sc e.1 - density ord * e.2)) st.1,
     st.2 ++ [ord])

/-- The greedy selection loop over the density-descending `order`. -/
def greedy (nbrs : List (List (Nat × ℚ))) (density score0 : Nat → ℚ)
    (order : List Nat) : (Nat → ℚ) × List Nat :=
  order.foldl (greedyStep nbrs density) (score0, [])

/-- The kept indices of one `filterPoints` call, in processing order. -/
def filterKept (nbrs : List (List (Nat × ℚ))) (n : Nat) : List Nat :=
  let dl := densityLoop nbrs n 200 (fun _ => 1)
  (greedy nbrs dl.1 dl.2 (sortIdxDesc dl.1 n)).2

/-- `std::sort(order.begin(), order.begin() + writeIndex)`: the kept
indices in ascending order, which is the gather order of the final
row compaction. -/
def keptSorted (nbrs : List (List (Nat × ℚ))) (n : Nat) : List Nat :=
  (filterKept nbrs n).mergeSort (fun a b => decide (a ≤ b))

/-- `Heuristic::filterPoints`: rows are compacted to the sorted kept
indices; the same gather is applied to the parallel `normals` matrix. -/
def filterPoints {α β : Type} [Inhabited α] [Inhabited β]
    (points : List α) (normals : List β) (nbrs : List (List (Nat × ℚ))) :
    List α × List β :=
  let ks := keptSorted nbrs points.length
  (ks.map (fun i => points.getD i default),
   ks.map (fun i => normals.getD i default))

/-! ### Concrete inputs used by counterexamples and witnesses -/

/-- A 4×4 depth buffer whose pixels all hold the background depth. -/
def bgDepth : DepthBuf := ⟨4, 4, fun _ _ => 100, 100⟩

/-- A camera center projecting to normalized viewer coordinate `x = 1`
(the right edge of the image): its depth-buffer column is
`(1+1)*4/2 = 4`, one past the last valid column `3`. -/
def edgeCfv : Vec4 := ⟨1, 0, 0, 1⟩

/-- A camera center projecting to the viewer's image center. -/
def centerCfv : Vec4 := ⟨0, 0, 0, 1⟩

/-- A viewer center lying exactly on the candidate camera's plane:
`vfc[3] = 0`, so the axial distance is `0/1 = 0`. -/
def onPlaneVfc : Vec4 := ⟨0, 0, 0, 0⟩

/-- A main camera at viewer coordinates `(0,0)`, unit cosine and unit
distance. -/
def mainCam0 : Label := ⟨0, 1, 1, 0, 0⟩

/-- A side candidate at the same viewer coordinates as `mainCam0`: its
parallax against `mainCam0` is zero, so its side weight is zero. -/
def sideCamSameView : Label := ⟨1, 1, 1, 0, 0⟩

/-- A side candidate with parallax 1 against `mainCam0`. -/
def sideCam1 : Label := ⟨1, 1, 1, 1, 0⟩

/-- A camera label with zero `cosFromViewer` (zero main weight). -/
def zeroCosCamA : Label := ⟨0, 0, 1, 0, 0⟩

/-- A second camera label with zero `cosFromViewer`. -/
def zeroCosCamB : Label := ⟨1, 0, 1, 0, 0⟩

/-- Run parameters with `cameraThreshold = 0` and
`samplingResolution = 400`, chosen so that the single witness shot
below accumulates exactly one full vote. -/
def runParamsW : RunParams := ⟨0, 400⟩

/-- A witness shot: two visible cameras with parallax 1, both draws at
the low end of the cumulative table. -/
def shotW : Shot := ⟨[mainCam0, sideCam1], 0, 0⟩

/-- Camera labels as produced by `filterCameras` in a real run: a
nonnegative index below 2^16 (an `int` cast from the camera position,
inside the `compact` key space) and a nonnegative viewing cosine (the
source computes it as a square root). -/
def GoodLabel (l : Label) : Prop :=
  0 ≤ l.index ∧ l.index < 65536 ∧ 0 ≤ l.cosFromViewer

/-- All labels of a shot are well-formed. -/
def GoodShot (sh : Shot) : Prop := ∀ l ∈ sh.cams, GoodLabel l

/-- Nonnegativity of the configuration scalars (`config->cameraThreshold`
and the derived `samplingResolution` are positive for any real
configuration). -/
def GoodParams (p : RunParams) : Prop :=
  0 ≤ p.cameraThreshold ∧ 0 ≤ p.samplingRes

/-- Run invariant of `chooseCameras`: diagonal marks never exceed 1,
every recorded pair holds a full vote, the accepted-pair count equals
the total number of side entries, and every bundle entry is
well-formed (main differs from its sides, no duplicate sides). -/
def Inv (s : RunState) : Prop :=
  (∀ a : Int, s.weights.val (compact a a) ≤ 1) ∧
  (∀ e ∈ s.chosen, ∀ j ∈ e.2, 1 ≤ s.weights.val (compact e.1 j)) ∧
  s.count = (s.chosen.map (fun e => e.2.length)).sum ∧
  (∀ e ∈ s.chosen, (∀ j ∈ e.2, e.1 ≠ j) ∧ e.2.Nodup)

/-! ## Theorems -/

/-- C3 (counterexample): the composite key is not symmetric — the
votes of `(main=0, side=1)` and `(main=1, side=0)` live under the
distinct keys `1` and `65536`. -/
theorem compact_unordered_cex : compact 0 1 ≠ compact 1 0 := by decide

/-- C3 (amended): the pair-weight table is keyed by the ORDERED pair
`(main, side)`: for camera indices below 2^16 the keys of `(i,j)` and
`(j,i)` coincide exactly when `i = j`, so a vote accumulated under one
ordering is NOT visible under the reversed ordering for any genuine
pair `i ≠ j`. -/
theorem compact_ordered_key (i j : Int) (h1 : 0 ≤ i) (h2 : i < 65536)
    (h3 : 0 ≤ j) (h4 : j < 65536) : compact i j = compact j i ↔ i = j := by
  unfold compact
  rw [Int.emod_eq_of_lt h1 h2, Int.emod_eq_of_lt h3 h4]
  omega

/-- Witness for `compact_ordered_key` at `i = 2`, `j = 3`. -/
theorem compact_ordered_key_witness :
    (0:Int) ≤ 2 ∧ (compact 2 3 = compact 3 2 ↔ (2:Int) = 3) :=
  ⟨by decide,
   compact_ordered_key 2 3 (by decide) (by decide) (by decide) (by decide)⟩

/-- C6 (code bug): a camera whose projected center has normalized
`x = 1` on a 4×4 depth buffer maps to pixel column `4 = cols`.  The
source bounds check `row < 0 || row >= depth.rows || col < 0 ||
col > depth.cols` does not reject it (it tests `col > cols`, not
`col >= cols`), and the subsequent `depth.at<float>(row, col)` access
is out of bounds. -/
theorem depth_bounds_off_by_one :
    zRejected edgeCfv = false ∧
    boundsRejected bgDepth edgeCfv = false ∧
    colPix bgDepth edgeCfv = bgDepth.cols ∧
    ¬ depthInBounds bgDepth (rowPix bgDepth edgeCfv) (colPix bgDepth edgeCfv) := by
  refine ⟨?_, ?_, ?_, ?_⟩ <;>
    norm_num [zRejected, boundsRejected, depthInBounds, rowPix, colPix,
      truncToInt, cfvOf, persDiv, bgDepth, edgeCfv]

/-- C9 (counterexample): a candidate camera whose axial distance is
exactly `0` is NOT rejected by the point-in-front test (`distance < 0`
in the source) — on this input it passes the whole filter and is
accepted with `distance = 0`. -/
theorem zero_distance_passes_cex :
    axialDistance 1 onPlaneVfc = 0 ∧
    checkCamera id 9 bgDepth 1 centerCfv onPlaneVfc =
      CamCheck.accepted ⟨9, 1, 0, 0, 0⟩ := by
  constructor
  · norm_num [axialDistance, onPlaneVfc]
  · norm_num [checkCamera, zRejected, boundsRejected, occlusionRejected,
      fovRejected, axialDistance, cfvOf, persDiv, rowPix, colPix, truncToInt,
      bgDepth, centerCfv, onPlaneVfc, focal]

/-- C9 (amended): the point-in-front test of `filterCameras` rejects a
candidate exactly when its axial distance is strictly negative (and the
earlier tests passed); in particular a candidate with axial distance
exactly `0` is never rejected by this test. -/
theorem behind_test_is_strict (rsqrt : ℚ → ℚ) (i : Int) (d : DepthBuf)
    (vcw : ℚ) (cfvRaw vfcRaw : Vec4) :
    (checkCamera rsqrt i d vcw cfvRaw vfcRaw = CamCheck.rejectedBehind ↔
      zRejected cfvRaw = false ∧ boundsRejected d cfvRaw = false ∧
      occlusionRejected d cfvRaw = false ∧ axialDistance vcw vfcRaw < 0) ∧
    (axialDistance vcw vfcRaw = 0 →
      checkCamera rsqrt i d vcw cfvRaw vfcRaw ≠ CamCheck.rejectedBehind) := by
  constructor
  · unfold checkCamera
    split_ifs with h1 h2 h3 h4 h5 <;> simp_all
  · intro h0
    unfold checkCamera
    split_ifs with h1 h2 h3 h4 h5 <;> simp_all

/-- C5 (code bug): with a zero total projected weight neither draw is
skipped.  `chooseSide` on two candidates with zero parallax (total side
weight `0`) runs `bisect` on an all-zero cumulative table, which
returns the table length, and the assertion `index >= 0 && index < i`
fails (the `none` outcome); `chooseMain` on candidates with zero weight
likewise feeds the out-of-range `bisect` result straight into
`filteredCameras[index]`. -/
theorem zero_weight_no_skip :
    sideActualWeightSum mainCam0 [mainCam0, sideCamSameView] = 0 ∧
    (chooseSide WTable.empty mainCam0 1 0 [mainCam0, sideCamSameView] (1/2)).1
      = none ∧
    mainOutSum [zeroCosCamA, zeroCosCamB] = 0 ∧
    (chooseMain WTable.empty [zeroCosCamA, zeroCosCamB] 0 (1/2)).1 = none := by
  refine ⟨?_, ?_, ?_, ?_⟩
  · norm_num [sideActualWeightSum, sideLabels, sideBaseWeight, mainCam0,
      sideCamSameView, pow2, focal]
  · norm_num [chooseSide, sideCum, sideLabels, sideBoostedWeight, sideBaseWeight,
      mainCam0, sideCamSameView, pow2, focal, cumSums, cumFrom, bisect,
      List.findIdx?, WTable.empty, List.getLastD]
  · norm_num [mainOutSum, mainBaseWeight, zeroCosCamA, zeroCosCamB, pow2]
  · norm_num [chooseMain, mainCum, mainOutSum, mainBaseWeight, mainBoostedWeight,
      zeroCosCamA, zeroCosCamB, pow2, cumSums, cumFrom, bisect, List.findIdx?,
      WTable.empty, List.getLastD, compact]

/-- C8: `beginMain` on an empty bundle table returns the sentinel;
`nextMain` at or past the last main entry returns the sentinel; and
`beginSide`/`nextSide` with an `imain` different from the main index at
the iterator's current (in-range) position return the sentinel instead
of signaling an error. -/
theorem iterator_sentinel_behaviour :
    (∀ s : IterState, s.chosenCameras = [] → (beginMain s).1 = sentinel) ∧
    (∀ s : IterState, s.chosenCameras.length ≤ s.mainIdx + 1 →
      (nextMain s).1 = sentinel) ∧
    (∀ (s : IterState) (imain : Int), s.mainIdx < s.chosenCameras.length →
      imain ≠ (s.chosenCameras.getD s.mainIdx (0, [])).1 →
      (beginSide s imain).1 = sentinel ∧ (nextSide s imain).1 = sentinel) := by
  refine ⟨?_, ?_, ?_⟩
  · intro s h
    simp [beginMain, h]
  · intro s h
    have : ¬ (s.mainIdx + 1 < s.chosenCameras.length) := by omega
    simp [nextMain, this]
  · intro s imain _ hm
    constructor
    · simp only [beginSide]
      split_ifs with h
      · rfl
      · exact absurd (Or.inl hm) h
    · simp only [nextSide]
      split_ifs
      rfl


/-- Helper: the inner scoring loop does not modify the score at an index
that none of the traversed edges target. -/
theorem scoreInner_score_untouched (density : Nat → ℚ) (i : Nat) (t : Nat) :
    ∀ (lst : List (Nat × ℚ)) (st : ℚ × PassState), (∀ e ∈ lst, e.1 ≠ t) →
      (scoreInner density i lst st).2.score t = st.2.score t := by
  intro lst
  induction lst with
  | nil => intro st _; rfl
  | cons e rest ih =>
    intro st h
    have h1 : e.1 ≠ t := h e (List.mem_cons_self e rest)
    have h2 : ∀ e' ∈ rest, e'.1 ≠ t := fun e' he' => h e' (List.mem_cons_of_mem e he')
    show (scoreInner density i rest _).2.score t = _
    rw [ih _ h2]
    simp [Function.update_noteq (Ne.symm h1)]

/-- Helper: a scoring pass leaves the score of an isolated point
(no stored edge in either direction) at zero. -/
theorem scorePass_isolated (nbrs : List (List (Nat × ℚ))) (density : Nat → ℚ)
    (t : Nat) (h1 : nbrs.getD t [] = [])
    (h2 : ∀ i e, e ∈ nbrs.getD i [] → e.1 ≠ t) (n : Nat) :
    (scorePass nbrs n density).score t = 0 := by
  suffices h : ∀ (l : List Nat) (st : PassState), st.score t = 0 →
      (l.foldl (passStep nbrs density) st).score t = 0 by
    exact h (List.range n) ⟨fun _ => 0, 0⟩ rfl
  intro l
  induction l with
  | nil => intro st hst; exact hst
  | cons i rest ih =>
    intro st hst
    refine ih _ ?_
    simp only [passStep]
    by_cases hit : i = t
    · subst hit
      rw [h1]
      simp only [scoreInner, List.foldl_nil]
      simp [hst]
    · rw [Function.update_noteq (Ne.symm hit)]
      rw [scoreInner_score_untouched density i t _ _ (h2 i)]
      exact hst

/-- Helper: the score component returned by the density loop is zero at
an isolated point, whatever the fuel and the running density. -/
theorem densityLoop_isolated (nbrs : List (List (Nat × ℚ))) (n : Nat)
    (t : Nat) (h1 : nbrs.getD t [] = [])
    (h2 : ∀ i e, e ∈ nbrs.getD i [] → e.1 ≠ t) :
    ∀ (fuel : Nat) (density : Nat → ℚ),
      (densityLoop nbrs n fuel density).2 t = 0 := by
  intro fuel
  induction fuel with
  | zero => intro density; rfl
  | succ fuel ih =>
    intro density
    rw [densityLoop]
    split
    · exact ih _
    · exact scorePass_isolated nbrs density t h1 h2 n

/-- Helper: the greedy subtraction loop does not modify the score at an
index that none of the traversed edges target. -/
theorem greedySub_untouched (density : Nat → ℚ) (ord : Nat) (t : Nat) :
    ∀ (lst : List (Nat × ℚ)) (sc : Nat → ℚ), (∀ e ∈ lst, e.1 ≠ t) →
      (lst.foldl (fun sc e => Function.update sc e.1 (sc e.1 - density ord * e.2)) sc) t
        = sc t := by
  intro lst
  induction lst with
  | nil => intro sc _; rfl
  | cons e rest ih =>
    intro sc h
    have h1 : e.1 ≠ t := h e (List.mem_cons_self e rest)
    have h2 : ∀ e' ∈ rest, e'.1 ≠ t := fun e' he' => h e' (List.mem_cons_of_mem e he')
    rw [List.foldl_cons, ih _ h2]
    simp [Function.update_noteq (Ne.symm h1)]

/-- Helper: the greedy selection never keeps an isolated point: its
score is zero, below the density limit, at every step. -/
theorem greedy_isolated (nbrs : List (List (Nat × ℚ))) (density : Nat → ℚ)
    (t : Nat) (h2 : ∀ i e, e ∈ nbrs.getD i [] → e.1 ≠ t) :
    ∀ (order : List Nat) (st : (Nat → ℚ) × List Nat),
      st.1 t = 0 → t ∉ st.2 →
      (order.foldl (greedyStep nbrs density) st).1 t = 0 ∧
      t ∉ (order.foldl (greedyStep nbrs density) st).2 := by
  intro order
  induction order with
  | nil => intro st hs hk; exact ⟨hs, hk⟩
  | cons ord rest ih =>
    intro st hs hk
    rw [List.foldl_cons]
    by_cases hot : ord = t
    · subst hot
      have hstep : greedyStep nbrs density st ord = st := by
        unfold greedyStep
        rw [if_pos]
        rw [hs]
        norm_num [densityLimit]
      rw [hstep]
      exact ih st hs hk
    · refine ih _ ?_ ?_
      · simp only [greedyStep]
        split
        · exact hs
        · dsimp only
          rw [greedySub_untouched density ord t _ _ (h2 ord)]
          exact hs
      · simp only [greedyStep]
        split
        · exact hk
        · dsimp only
          simp only [List.mem_append, List.mem_singleton]
          rintro (hmem | rfl)
          · exact hk hmem
          · exact hot rfl

/-- Helper: every index kept by the greedy loop comes from the initial
accumulator or from the processed order list. -/
theorem greedy_kept_from_order (nbrs : List (List (Nat × ℚ))) (density : Nat → ℚ) :
    ∀ (order : List Nat) (st : (Nat → ℚ) × List Nat) (x : Nat),
      x ∈ (order.foldl (greedyStep nbrs density) st).2 → x ∈ st.2 ∨ x ∈ order := by
  intro order
  induction order with
  | nil => intro st x hx; exact Or.inl hx
  | cons ord rest ih =>
    intro st x hx
    rw [List.foldl_cons] at hx
    rcases ih _ x hx with hmem | hmem
    · unfold greedyStep at hmem
      split at hmem
      · exact Or.inl hmem
      · dsimp only at hmem
        rcases List.mem_append.mp hmem with hmem' | hmem'
        · exact Or.inl hmem'
        · exact Or.inr (by simp at hmem'; simp [hmem'])
    · exact Or.inr (List.mem_cons_of_mem ord hmem)

/-- Helper: an isolated point is never among the kept indices. -/
theorem isolated_not_in_filterKept (nbrs : List (List (Nat × ℚ))) (n t : Nat)
    (h1 : nbrs.getD t [] = [])
    (h2 : ∀ i e, e ∈ nbrs.getD i [] → e.1 ≠ t) :
    t ∉ filterKept nbrs n ∧ t ∉ keptSorted nbrs n := by
  have hmain : t ∉ filterKept nbrs n := by
    unfold filterKept greedy
    have hscore : (densityLoop nbrs n 200 fun _ => 1).2 t = 0 :=
      densityLoop_isolated nbrs n t h1 h2 200 _
    exact fun hmem =>
      ((greedy_isolated nbrs _ t h2 _ _ hscore (List.not_mem_nil t)).2) hmem
  refine ⟨hmain, fun hmem => hmain ?_⟩
  unfold keptSorted at hmem
  exact ((filterKept nbrs n).mergeSort_perm _).mem_iff.mp hmem

/-- C2 (amended): a point with zero neighbors in the neighbor graph (no
stored edge in either direction) is always REMOVED by `filterPoints`:
its score stays `0`, below the `0.7` density limit, so the greedy
selection never keeps it. -/
theorem isolated_point_dropped (nbrs : List (List (Nat × ℚ))) (n t : Nat)
    (h1 : nbrs.getD t [] = [])
    (h2 : ∀ i e, e ∈ nbrs.getD i [] → e.1 ≠ t) :
    t ∉ filterKept nbrs n ∧ t ∉ keptSorted nbrs n :=
  isolated_not_in_filterKept nbrs n t h1 h2

/-- Witness for `isolated_point_dropped`: a one-point cloud with an
empty neighbor table. -/
theorem isolated_point_dropped_witness :
    (0 : Nat) ∉ filterKept [[]] 1 ∧ (0 : Nat) ∉ keptSorted [[]] 1 :=
  isolated_point_dropped [[]] 1 0 rfl (by
    intro i e h
    rcases i with _ | k
    · simp at h
    · simp at h)

/-- C2 (counterexample): on the one-point cloud whose single point has
no neighbors, `filterPoints` returns the EMPTY cloud — the isolated
point is not kept, contradicting the claim. -/
theorem isolated_point_kept_cex :
    filterPoints [(0 : ℚ)] [(0 : ℚ)] [[]] = ([], []) := by
  have haux := isolated_not_in_filterKept [[]] 1 0 rfl (by
    intro i e h
    rcases i with _ | k
    · simp at h
    · simp at h)
  have hkept : filterKept [[]] 1 = [] := by
    rw [List.eq_nil_iff_forall_not_mem]
    intro x hx
    have hx' := hx
    unfold filterKept greedy at hx'
    rcases greedy_kept_from_order [[]] _ _ _ x hx' with hmem | hmem
    · exact List.not_mem_nil x hmem
    · have hxr : x ∈ List.range 1 :=
        (List.mergeSort_perm (List.range 1) _).mem_iff.mp hmem
      have hx0 : x = 0 := by simpa using hxr
      exact haux.1 (hx0 ▸ hx)
  have hsorted : keptSorted [[]] 1 = [] := by
    rw [keptSorted, hkept, List.mergeSort_nil]
  show (let ks := keptSorted [[]] [(0:ℚ)].length
        (ks.map (fun i => [(0:ℚ)].getD i default),
         ks.map (fun i => [(0:ℚ)].getD i default))) = ([], [])
  simp only [List.length_singleton, hsorted, List.map_nil]

/-- Helper: the kept list extends the accumulator by a subsequence of
the processed order list. -/
theorem greedy_kept_sublist (nbrs : List (List (Nat × ℚ))) (density : Nat → ℚ) :
    ∀ (order : List Nat) (st : (Nat → ℚ) × List Nat),
      ∃ t, (order.foldl (greedyStep nbrs density) st).2 = st.2 ++ t ∧
        t.Sublist order := by
  intro order
  induction order with
  | nil => intro st; exact ⟨[], (List.append_nil _).symm, List.nil_sublist _⟩
  | cons ord rest ih =>
    intro st
    rw [List.foldl_cons]
    by_cases hc : st.1 ord < densityLimit
    · have hstep : greedyStep nbrs density st ord = st := by
        unfold greedyStep
        rw [if_pos hc]
      rw [hstep]
      rcases ih st with ⟨t, ht, hs⟩
      exact ⟨t, ht, hs.cons ord⟩
    · have hstep : greedyStep nbrs density st ord =
          ((nbrs.getD ord []).foldl
            (fun sc e => Function.update sc e.1 (sc e.1 - density ord * e.2)) st.1,
           st.2 ++ [ord]) := by
        unfold greedyStep
        rw [if_neg hc]
      rw [hstep]
      rcases ih ((nbrs.getD ord []).foldl
          (fun sc e => Function.update sc e.1 (sc e.1 - density ord * e.2)) st.1,
          st.2 ++ [ord]) with ⟨t, ht, hs⟩
      refine ⟨ord :: t, ?_, hs.cons₂ ord⟩
      rw [ht]
      simp [List.append_assoc]

/-- Helper: the kept indices form a subsequence of the density-sorted
order, which is a permutation of `range n`. -/
theorem filterKept_sublist_perm (nbrs : List (List (Nat × ℚ))) (n : Nat) :
    ∃ order : List Nat, order.Perm (List.range n) ∧
      (filterKept nbrs n).Sublist order := by
  unfold filterKept greedy
  rcases greedy_kept_sublist nbrs (densityLoop nbrs n 200 fun _ => 1).1
      (sortIdxDesc (densityLoop nbrs n 200 fun _ => 1).1 n)
      ((densityLoop nbrs n 200 fun _ => 1).2, []) with ⟨t, ht, hs⟩
  refine ⟨sortIdxDesc (densityLoop nbrs n 200 fun _ => 1).1 n,
    List.mergeSort_perm _ _, ?_⟩
  rw [ht]
  simpa using hs

/-- Helper: the kept indices are distinct and below the point count. -/
theorem filterKept_nodup_bound (nbrs : List (List (Nat × ℚ))) (n : Nat) :
    (filterKept nbrs n).Nodup ∧ (filterKept nbrs n).length ≤ n ∧
      ∀ i ∈ filterKept nbrs n, i < n := by
  rcases filterKept_sublist_perm nbrs n with ⟨order, hperm, hsub⟩
  have hnodup : order.Nodup := hperm.nodup_iff.mpr (List.nodup_range n)
  refine ⟨hsub.nodup hnodup, ?_, ?_⟩
  · calc (filterKept nbrs n).length ≤ order.length := hsub.length_le
      _ = (List.range n).length := hperm.length_eq
      _ = n := List.length_range n
  · intro i hi
    have : i ∈ List.range n := hperm.mem_iff.mp (hsub.mem hi)
    exact List.mem_range.mp this

/-- Helper: the sorted kept indices are strictly increasing and below
the point count. -/
theorem keptSorted_pairwise_bound (nbrs : List (List (Nat × ℚ))) (n : Nat) :
    (keptSorted nbrs n).Pairwise (· < ·) ∧ (keptSorted nbrs n).length ≤ n ∧
      ∀ i ∈ keptSorted nbrs n, i < n := by
  rcases filterKept_nodup_bound nbrs n with ⟨hnd, hlen, hbnd⟩
  have hperm : (keptSorted nbrs n).Perm (filterKept nbrs n) :=
    List.mergeSort_perm _ _
  have hle : (keptSorted nbrs n).Pairwise (fun a b : Nat => a ≤ b) := by
    have := @List.sorted_mergeSort Nat (fun a b : Nat => decide (a ≤ b))
      (by intro a b c h1 h2; simp at *; omega)
      (by intro a b; simp [Nat.le_total]) (filterKept nbrs n)
    exact this.imp (by intro a b h; simpa using h)
  have hne : (keptSorted nbrs n).Pairwise (fun a b : Nat => a ≠ b) :=
    hperm.nodup_iff.mpr hnd
  refine ⟨(hle.and hne).imp ?_, ?_, ?_⟩
  · intro a b h
    exact lt_of_le_of_ne h.1 h.2
  · calc (keptSorted nbrs n).length = (filterKept nbrs n).length := hperm.length_eq
      _ ≤ n := hlen
  · intro i hi
    exact hbnd i (hperm.mem_iff.mp hi)

/-- Helper: gathering via `getD` is gathering via `Fin`-indexed
`getElem` when every index is in range. -/
theorem map_getD_eq_pmap {γ : Type} [Inhabited γ] (l : List γ) :
    ∀ (is : List Nat) (hb : ∀ i ∈ is, i < l.length),
      is.map (fun i => l.getD i default) =
        (is.pmap (fun i h => (⟨i, h⟩ : Fin l.length)) hb).map
          (fun x : Fin l.length => l[x])
  | [], _ => rfl
  | a :: t, hb => by
    simp only [List.map_cons, List.pmap]
    refine congrArg₂ _ ?_
      (map_getD_eq_pmap l t fun i hi => hb i (List.mem_cons_of_mem a hi))
    exact List.getD_eq_getElem l default (hb a (List.mem_cons_self a t))

/-- Helper: gathering rows at a strictly increasing list of in-range
indices yields a subsequence of the row list. -/
theorem map_getD_sublist {γ : Type} [Inhabited γ] (l : List γ)
    (is : List Nat) (hp : is.Pairwise (· < ·))
    (hb : ∀ i ∈ is, i < l.length) :
    (is.map (fun i => l.getD i default)).Sublist l := by
  rw [map_getD_eq_pmap l is hb]
  refine List.map_getElem_sublist ((List.pairwise_pmap hb).mpr (hp.imp ?_))
  intro a b h h1 h2
  exact Fin.mk_lt_mk.mpr h

/-- C4: `filterPoints` on parallel point/normal sequences of equal
length outputs at most as many rows as it received, keeps the retained
point rows and normal rows in their original relative order (they are
subsequences of the inputs), and leaves the two sequences with equal
lengths. -/
theorem filterPoints_shape {α β : Type} [Inhabited α] [Inhabited β]
    (points : List α) (normals : List β) (nbrs : List (List (Nat × ℚ)))
    (hlen : normals.length = points.length) (_hnodup : points.Nodup) :
    (filterPoints points normals nbrs).1.length ≤ points.length ∧
    (filterPoints points normals nbrs).1.length =
      (filterPoints points normals nbrs).2.length ∧
    (filterPoints points normals nbrs).1.Sublist points ∧
    (filterPoints points normals nbrs).2.Sublist normals := by
  rcases keptSorted_pairwise_bound nbrs points.length with ⟨hp, hle, hbnd⟩
  unfold filterPoints
  refine ⟨?_, ?_, ?_, ?_⟩
  · rw [List.length_map]
    exact hle
  · rw [List.length_map, List.length_map]
  · exact map_getD_sublist points _ hp hbnd
  · refine map_getD_sublist normals _ hp ?_
    intro i hi
    rw [hlen]
    exact hbnd i hi

/-- Witness for `filterPoints_shape`: a two-point cloud with no
neighbor edges. -/
theorem filterPoints_shape_witness :
    (filterPoints [(1 : ℚ), 2] [(3 : ℚ), 4] [[], []]).1.length ≤ 2 ∧
    (filterPoints [(1 : ℚ), 2] [(3 : ℚ), 4] [[], []]).1.length =
      (filterPoints [(1 : ℚ), 2] [(3 : ℚ), 4] [[], []]).2.length ∧
    (filterPoints [(1 : ℚ), 2] [(3 : ℚ), 4] [[], []]).1.Sublist [(1 : ℚ), 2] ∧
    (filterPoints [(1 : ℚ), 2] [(3 : ℚ), 4] [[], []]).2.Sublist [(3 : ℚ), 4] :=
  filterPoints_shape [(1 : ℚ), 2] [(3 : ℚ), 4] [[], []] rfl
    (by norm_num)


/-- Helper: `compact` is injective on in-range index pairs. -/
theorem compact_inj {i j i' j' : Int} (hi0 : 0 ≤ i) (hi : i < 65536)
    (hj0 : 0 ≤ j) (hj : j < 65536) (hi0' : 0 ≤ i') (hi' : i' < 65536)
    (hj0' : 0 ≤ j') (hj' : j' < 65536) :
    compact i j = compact i' j' → i = i' ∧ j = j' := by
  unfold compact
  rw [Int.emod_eq_of_lt hi0 hi, Int.emod_eq_of_lt hj0 hj,
      Int.emod_eq_of_lt hi0' hi', Int.emod_eq_of_lt hj0' hj']
  omega

/-- Helper: a proper pair key never collides with a diagonal key. -/
theorem compact_ne_diag {i j : Int} (a : Int) (hi0 : 0 ≤ i) (hi : i < 65536)
    (hj0 : 0 ≤ j) (hj : j < 65536) (hij : i ≠ j) :
    compact i j ≠ compact a a := by
  unfold compact
  rw [Int.emod_eq_of_lt hi0 hi, Int.emod_eq_of_lt hj0 hj]
  have h1 : 0 ≤ a % 65536 := Int.emod_nonneg a (by norm_num)
  have h2 : a % 65536 < 65536 := Int.emod_lt_of_pos a (by norm_num)
  omega

/-- Helper: entries of the cumulative table are the partial sums. -/
theorem cumFrom_getD (ws : List ℚ) :
    ∀ (t : ℚ) (i : Nat), i < ws.length →
      (cumFrom t ws).getD i 0 = t + (ws.take (i + 1)).sum := by
  induction ws with
  | nil => intro t i h; simp at h
  | cons w rest ih =>
    intro t i h
    cases i with
    | zero => simp [cumFrom]
    | succ i =>
      rw [cumFrom]
      simp only [List.getD_cons_succ]
      rw [ih (t + w) i (by simpa using h)]
      simp [add_assoc]

/-- Helper: `weightSum[i]` is the sum of the first `i` weights. -/
theorem cumSums_getD (ws : List ℚ) (i : Nat) (h : i ≤ ws.length) :
    (cumSums ws).getD i 0 = (ws.take i).sum := by
  cases i with
  | zero => simp [cumSums]
  | succ i =>
    rw [cumSums]
    simp only [List.getD_cons_succ]
    rw [cumFrom_getD ws 0 i (by omega)]
    simp

/-- Helper: the drawn weight share `weightSum[index+1] - weightSum[index]`
is the weight at the drawn position. -/
theorem cumSums_step (ws : List ℚ) (i : Nat) (h : i < ws.length) :
    (cumSums ws).getD (i + 1) 0 - (cumSums ws).getD i 0 = ws.getD i 0 := by
  rw [cumSums_getD ws (i + 1) (by omega), cumSums_getD ws i (by omega)]
  have htake : ws.take (i + 1) = ws.take i ++ [ws[i]] := by
    rw [List.take_succ, List.getElem?_eq_getElem h]
    rfl
  rw [htake, List.sum_append, List.getD_eq_getElem ws 0 h]
  simp

/-- Helper: unboosted side weights are nonnegative when the cosine is. -/
theorem sideBaseWeight_nonneg (m l : Label) (h : 0 ≤ l.cosFromViewer) :
    0 ≤ sideBaseWeight m l := by
  unfold sideBaseWeight pow2
  refine div_nonneg (mul_nonneg h ?_) (mul_self_nonneg _)
  refine div_nonneg (add_nonneg (mul_self_nonneg _) (mul_self_nonneg _)) ?_
  norm_num [focal]

/-- Helper: boosted side weights are nonnegative for a nonnegative
boost factor. -/
theorem sideBoostedWeight_nonneg (w : WTable) (m : Label) (boost : ℚ)
    (n : Nat) (l : Label) (hcos : 0 ≤ l.cosFromViewer) (hb : 0 ≤ boost) :
    0 ≤ sideBoostedWeight w m boost n l := by
  unfold sideBoostedWeight
  dsimp only
  have h0 := sideBaseWeight_nonneg m l hcos
  split
  · have : 0 ≤ sideBaseWeight m l * boost * n :=
      mul_nonneg (mul_nonneg h0 hb) (Nat.cast_nonneg n)
    linarith
  · exact h0

/-- Helper: unboosted main weights are nonnegative when the cosine is. -/
theorem mainBaseWeight_nonneg (l : Label) (h : 0 ≤ l.cosFromViewer) :
    0 ≤ mainBaseWeight l := by
  unfold mainBaseWeight pow2
  exact div_nonneg h (mul_self_nonneg _)

/-- Helper: the unboosted main weight sum is nonnegative. -/
theorem mainOutSum_nonneg (cams : List Label)
    (h : ∀ l ∈ cams, 0 ≤ l.cosFromViewer) : 0 ≤ mainOutSum cams := by
  refine List.sum_nonneg ?_
  intro x hx
  rcases List.mem_map.mp hx with ⟨l, hl, rfl⟩
  exact mainBaseWeight_nonneg l (h l hl)

/-- Helper: the unboosted side weight sum is nonnegative. -/
theorem sideActualWeightSum_nonneg (m : Label) (cams : List Label)
    (h : ∀ l ∈ cams, 0 ≤ l.cosFromViewer) :
    0 ≤ sideActualWeightSum m cams := by
  refine List.sum_nonneg ?_
  intro x hx
  rcases List.mem_map.mp hx with ⟨l, hl, rfl⟩
  exact sideBaseWeight_nonneg m l (h l (List.mem_of_mem_filter hl))

/-- Helper: the drawn share of the side cumulative table is nonnegative. -/
theorem sideCum_share_nonneg (w : WTable) (m : Label) (b : ℚ)
    (cams : List Label) (i : Nat)
    (hcos : ∀ l ∈ cams, 0 ≤ l.cosFromViewer) (hb : 0 ≤ b)
    (hi : i < (sideLabels m cams).length) :
    0 ≤ (sideCum w m b cams).getD (i + 1) 0 - (sideCum w m b cams).getD i 0 := by
  unfold sideCum
  have hlen : i < ((sideLabels m cams).map
      (sideBoostedWeight w m b cams.length)).length := by
    rw [List.length_map]; exact hi
  rw [cumSums_step _ i hlen]
  rw [List.getD_eq_getElem _ 0 hlen]
  rw [List.getElem_map]
  refine sideBoostedWeight_nonneg w m b cams.length _ ?_ hb
  exact hcos _ (List.mem_of_mem_filter (List.getElem_mem _))

/-- Helper: the vote-table update chain of the accepting branch of
`chooseSide` never decreases a stored value, provided the increment is
nonnegative and the diagonal mark does not exceed 1. -/
theorem setv_chain_mono (w : WTable) (ck dk : Nat) (aw : ℚ)
    (haw : 0 ≤ aw) (hdiag : w.val dk ≤ 1) (k : Nat) :
    w.val k ≤ (((w.touch ck).setv dk 1).setv ck
      (((w.touch ck).setv dk 1).val ck + aw)).val k := by
  simp only [WTable.touch, WTable.setv]
  by_cases hkc : k = ck
  · subst hkc
    by_cases hcd : k = dk
    · subst hcd
      simp only [if_true, eq_self_iff_true]
      linarith
    · simp only [if_true, eq_self_iff_true, if_neg hcd]
      linarith
  · by_cases hkd : k = dk
    · subst hkd
      simp only [if_neg hkc, if_true, eq_self_iff_true]
      exact hdiag
    · simp only [if_neg hkc, if_neg hkd]
      exact le_refl _


/-- Helper: the label drawn from the `labels` vector of `chooseSide` is
a candidate distinct from the main camera. -/
theorem sideLabels_getD_mem (m : Label) (cams : List Label) (i : Nat)
    (hi : i < (sideLabels m cams).length) :
    (sideLabels m cams).getD i dummyLabel ∈ cams ∧
    ((sideLabels m cams).getD i dummyLabel).index ≠ m.index := by
  rw [List.getD_eq_getElem _ _ hi]
  have hmem := List.getElem_mem (l := sideLabels m cams) (n := i) hi
  refine ⟨List.mem_of_mem_filter hmem, ?_⟩
  have := List.of_mem_filter hmem
  simpa using this

/-- Helper: `chooseSide` keeps every diagonal mark at most 1 (in-range
main and candidate indices). -/
theorem chooseSide_diag_le (w : WTable) (m : Label) (θ b : ℚ)
    (cams : List Label) (r : ℚ)
    (hm0 : 0 ≤ m.index) (hm : m.index < 65536)
    (hcams : ∀ l ∈ cams, 0 ≤ l.index ∧ l.index < 65536)
    (hdiag : ∀ a : Int, w.val (compact a a) ≤ 1) (a : Int) :
    (chooseSide w m θ b cams r).2.val (compact a a) ≤ 1 := by
  simp only [chooseSide]
  split_ifs with h1 h2 h3 h4
  · exact hdiag a
  · exact hdiag a
  all_goals first
  | exact hdiag a
  | { have hlab := sideLabels_getD_mem m cams _ h2.2
      have hlb := hcams _ hlab.1
      have hne : compact m.index
          ((sideLabels m cams).getD (bisect (sideCum w m b cams)
            (r * (sideCum w m b cams).getLastD 0)).toNat dummyLabel).index ≠
          compact a a :=
        compact_ne_diag a hm0 hm hlb.1 hlb.2 (Ne.symm hlab.2)
      simp only [WTable.setv, WTable.touch]
      rw [if_neg (Ne.symm hne)]
      by_cases had : compact a a = compact m.index m.index
      · rw [if_pos had]
      · rw [if_neg had]
        exact hdiag a }

/-- Helper: a successful `chooseMain` returns one of the candidates and
the unboosted weight sum. -/
theorem chooseMain_some (w : WTable) (cams : List Label) (b r : ℚ)
    (mc : Label) (mws : ℚ) (h : chooseMain w cams b r = (some mc, mws)) :
    mc ∈ cams ∧ mws = mainOutSum cams := by
  simp only [chooseMain] at h
  split_ifs at h with h1 h2
  · simp at h
  · rw [Prod.mk.injEq, Option.some.injEq] at h
    refine ⟨?_, h.2.symm⟩
    rw [← h.1, List.getD_eq_getElem _ _ h2.2]
    exact List.getElem_mem h2.2
  · simp at h

/-- Helper: what an accepting `chooseSide` call guarantees: the side is
a candidate other than the main, its pair vote was below 1 before the
call and at least 1 after it, and no other key changed except possibly
the main's diagonal mark. -/
theorem chooseSide_accepted (w : WTable) (m : Label) (θ b : ℚ)
    (cams : List Label) (r : ℚ) (sl : Label) (w' : WTable)
    (h : chooseSide w m θ b cams r = (some sl, w'))
    (hne : sl.index ≠ dummyLabel.index) :
    sl ∈ cams ∧ sl.index ≠ m.index ∧
    w.val (compact m.index sl.index) < 1 ∧
    1 ≤ w'.val (compact m.index sl.index) ∧
    (∀ k : Nat, k ≠ compact m.index sl.index →
      k ≠ compact m.index m.index → w'.val k = w.val k) := by
  simp only [chooseSide] at h
  split_ifs at h with h1 h2 h3 h4
  · simp at h
  · rw [Prod.mk.injEq, Option.some.injEq] at h
    rw [← h.1] at hne
    simp [dummyLabel] at hne
  · rw [Prod.mk.injEq, Option.some.injEq] at h
    obtain ⟨hsl, hw⟩ := h
    have hlab := sideLabels_getD_mem m cams _ h2.2
    subst hsl
    refine ⟨hlab.1, hlab.2, lt_of_not_le h3, ?_, ?_⟩
    · rw [← hw]
      exact h4
    · intro k hk1 hk2
      rw [← hw]
      simp only [WTable.setv, WTable.touch]
      rw [if_neg hk1, if_neg hk2]
  · rw [Prod.mk.injEq, Option.some.injEq] at h
    rw [← h.1] at hne
    simp [dummyLabel] at hne
  · simp at h

/-- Helper: a `chooseSide` call that returns the dummy label moves no
non-diagonal vote from below 1 to at least 1. -/
theorem chooseSide_dummy_no_cross (w : WTable) (m : Label) (θ b : ℚ)
    (cams : List Label) (r : ℚ) (sl : Label) (w' : WTable)
    (h : chooseSide w m θ b cams r = (some sl, w'))
    (hsl : sl.index = dummyLabel.index)
    (hidx : ∀ l ∈ cams, 0 ≤ l.index) (k : Nat)
    (hk : k ≠ compact m.index m.index) :
    ¬(w.val k < 1 ∧ 1 ≤ w'.val k) := by
  simp only [chooseSide] at h
  split_ifs at h with h1 h2 h3 h4
  · simp at h
  · rw [Prod.mk.injEq] at h
    rw [← h.2]
    rintro ⟨hlt, hge⟩
    exact absurd (lt_of_lt_of_le hlt hge) (lt_irrefl _)
  · rw [Prod.mk.injEq, Option.some.injEq] at h
    have hlab := sideLabels_getD_mem m cams _ h2.2
    have h0 := hidx _ hlab.1
    rw [h.1] at h0
    rw [hsl] at h0
    simp [dummyLabel] at h0
  · rw [Prod.mk.injEq] at h
    rw [← h.2]
    by_cases hkc : k = compact m.index
        ((sideLabels m cams).getD (bisect (sideCum w m b cams)
          (r * (sideCum w m b cams).getLastD 0)).toNat dummyLabel).index
    · rintro ⟨hlt, hge⟩
      rw [hkc] at hge
      exact h4 hge
    · simp only [WTable.setv, WTable.touch]
      rw [if_neg hkc, if_neg hk]
      rintro ⟨hlt, hge⟩
      exact absurd (lt_of_lt_of_le hlt hge) (lt_irrefl _)
  · simp at h


/-- Helper: a `myFindNV` miss means no entry has the sought main index. -/
theorem myFindNV_neg (table : List (Int × List Int)) (m : Int)
    (h : myFindNV table m = -1) : ∀ e ∈ table, e.1 ≠ m := by
  unfold myFindNV at h
  split at h
  · next i hi =>
    rcases List.findIdx?_eq_some_iff_getElem.mp hi with ⟨hlt, _, _⟩
    omega
  · next hnone =>
    intro e he hme
    have := List.findIdx?_eq_none_iff.mp hnone e he
    simp [hme] at this

/-- Helper: a `myFindNV` hit designates the first entry with the sought
main index. -/
theorem myFindNV_pos (table : List (Int × List Int)) (m : Int)
    (h : myFindNV table m ≠ -1) :
    (myFindNV table m).toNat < table.length ∧
    (table.getD (myFindNV table m).toNat (0, [])).1 = m := by
  unfold myFindNV at *
  split at h
  · next i hi =>
    rcases List.findIdx?_eq_some_iff_getElem.mp hi with ⟨hlt, hp, _⟩
    refine ⟨by simpa using hlt, ?_⟩
    rw [List.getD_eq_getElem _ _ (by simpa using hlt)]
    simpa using hp
  · simp at h

/-- Helper: a `myFindI` miss means the side index is not in the list. -/
theorem myFindI_neg (list : List Int) (j : Int)
    (h : myFindI list j = -1) : j ∉ list := by
  unfold myFindI at h
  split at h
  · next i hi =>
    rcases List.findIdx?_eq_some_iff_getElem.mp hi with ⟨hlt, _, _⟩
    omega
  · next hnone =>
    intro hj
    have := List.findIdx?_eq_none_iff.mp hnone j hj
    simp at this

/-- Helper: a `myFindI` hit means the side index is in the list. -/
theorem myFindI_pos (list : List Int) (j : Int)
    (h : myFindI list j ≠ -1) : j ∈ list := by
  unfold myFindI at h
  split at h
  · next i hi =>
    rcases List.findIdx?_eq_some_iff_getElem.mp hi with ⟨hlt, hp, _⟩
    have : list[i] = j := by simpa using hp
    rw [← this]
    exact List.getElem_mem hlt
  · simp at h

/-- Helper: replacing one entry changes the side-entry total by the
length difference of that entry. -/
theorem sum_map_set (t : List (Int × List Int)) :
    ∀ (pos : Nat) (x : Int × List Int), pos < t.length →
      ((t.set pos x).map (fun e => e.2.length)).sum +
          (t.getD pos (0, [])).2.length
        = (t.map (fun e => e.2.length)).sum + x.2.length := by
  induction t with
  | nil => intro pos x h; simp at h
  | cons a rest ih =>
    intro pos x h
    cases pos with
    | zero => simp [List.set]; omega
    | succ p =>
      simp only [List.set, List.map_cons, List.sum_cons, List.getD_cons_succ]
      have := ih p x (by simpa using h)
      omega

/-- Helper: every entry of the updated bundle table is an old entry,
the fresh singleton entry, or an old entry extended by the new side. -/
theorem insertPair_mem (table : List (Int × List Int)) (m j : Int)
    (e' : Int × List Int) (he' : e' ∈ insertPair table m j) :
    e' ∈ table ∨ e' = (m, [j]) ∨
    ∃ s : List Int, e' = (m, s ++ [j]) ∧ (m, s) ∈ table := by
  simp only [insertPair] at he'
  split_ifs at he' with h1 h2
  · rcases List.mem_append.mp he' with h | h
    · exact Or.inl h
    · simp only [List.mem_singleton] at h
      exact Or.inr (Or.inl h)
  · rcases List.mem_or_eq_of_mem_set he' with h | h
    · exact Or.inl h
    · have hp := myFindNV_pos table m h1
      refine Or.inr (Or.inr
        ⟨(table.getD (myFindNV table m).toNat (0, [])).2, ?_, ?_⟩)
      · rw [h, hp.2]
      · have hmem : table.getD (myFindNV table m).toNat (0, []) ∈ table := by
          rw [List.getD_eq_getElem _ _ hp.1]
          exact List.getElem_mem hp.1
        have hEq : (m, (table.getD (myFindNV table m).toNat (0, [])).2) =
            table.getD (myFindNV table m).toNat (0, []) :=
          Prod.ext hp.2.symm rfl
        rw [hEq]
        exact hmem
  · exact Or.inl he'

/-- Helper: inserting a genuinely new pair grows the side-entry total
by exactly one. -/
theorem insertPair_count (table : List (Int × List Int)) (m j : Int)
    (hfresh : ∀ e ∈ table, e.1 = m → j ∉ e.2) :
    ((insertPair table m j).map (fun e => e.2.length)).sum
      = (table.map (fun e => e.2.length)).sum + 1 := by
  simp only [insertPair]
  split_ifs with h1 h2
  · simp
  · have hp := myFindNV_pos table m h1
    have hs := sum_map_set table (myFindNV table m).toNat
      ((table.getD (myFindNV table m).toNat (0, [])).1,
       (table.getD (myFindNV table m).toNat (0, [])).2 ++ [j]) hp.1
    simp only [List.length_append, List.length_singleton] at hs
    omega
  · exfalso
    have hp := myFindNV_pos table m h1
    have hj := myFindI_pos _ j h2
    have hmem : table.getD (myFindNV table m).toNat (0, []) ∈ table := by
      rw [List.getD_eq_getElem _ _ hp.1]
      exact List.getElem_mem hp.1
    exact hfresh _ hmem hp.2 hj


/-- Helper: one `chooseSide` call never decreases any stored vote
(nonnegative threshold and boost, well-formed diagonal mark). -/
theorem chooseSide_val_mono (w : WTable) (m : Label) (θ b : ℚ)
    (cams : List Label) (r : ℚ)
    (hcos : ∀ l ∈ cams, 0 ≤ l.cosFromViewer) (hθ : 0 ≤ θ) (hb : 0 ≤ b)
    (hdiag : w.val (compact m.index m.index) ≤ 1) (k : Nat) :
    w.val k ≤ (chooseSide w m θ b cams r).2.val k := by
  have haw : ∀ i : Nat, i < (sideLabels m cams).length →
      0 ≤ ((sideCum w m b cams).getD (i + 1) 0 - (sideCum w m b cams).getD i 0) /
        (θ * sideActualWeightSum m cams) := by
    intro i hi
    refine div_nonneg (sideCum_share_nonneg w m b cams i hcos hb hi) ?_
    exact mul_nonneg hθ (sideActualWeightSum_nonneg m cams hcos)
  simp only [chooseSide]
  split_ifs with h1 h2 h3 h4
  · exact le_rfl
  · exact le_rfl
  · exact setv_chain_mono w _ _ _ (haw _ h2.2) hdiag k
  · exact setv_chain_mono w _ _ _ (haw _ h2.2) hdiag k
  · exact le_rfl


/-- Helper: one loop iteration of `chooseCameras` preserves the run
invariant and never decreases a vote. -/
theorem runStep_inv (p : RunParams) (hp : GoodParams p) (s : RunState)
    (shot : Shot) (hg : GoodShot shot) (hinv : Inv s) (s' : RunState)
    (h : runStep p s shot = some s') :
    Inv s' ∧ (∀ k, s.weights.val k ≤ s'.weights.val k) := by
  obtain ⟨hdiag, hvotes, hcount, hwf⟩ := hinv
  unfold runStep at h
  split_ifs at h with hlen
  case neg =>
    rw [Option.some.injEq] at h
    subst h
    exact ⟨⟨hdiag, hvotes, hcount, hwf⟩, fun k => le_rfl⟩
  rcases hcm : chooseMain s.weights shot.cams p.cameraThreshold shot.rMain
    with ⟨mo, mws⟩
  rw [hcm] at h
  cases mo with
  | none => simp at h
  | some mc =>
  dsimp only at h
  rcases hcs : chooseSide s.weights mc (shotCount * mws / p.samplingRes)
      (p.cameraThreshold / 10) shot.cams shot.rSide with ⟨so, w2⟩
  rw [hcs] at h
  cases so with
  | none => simp at h
  | some sl =>
  dsimp only at h
  have hmc := chooseMain_some _ _ _ _ _ _ hcm
  have hgm := hg mc hmc.1
  have hcos : ∀ l ∈ shot.cams, 0 ≤ l.cosFromViewer := fun l hl => (hg l hl).2.2
  have hθ : 0 ≤ (shotCount : ℚ) * mws / p.samplingRes := by
    refine div_nonneg (mul_nonneg (by positivity) ?_) hp.2
    rw [hmc.2]
    exact mainOutSum_nonneg _ hcos
  have hbst : 0 ≤ p.cameraThreshold / 10 := div_nonneg hp.1 (by norm_num)
  have hmono : ∀ k, s.weights.val k ≤ w2.val k := by
    intro k
    have := chooseSide_val_mono s.weights mc (shotCount * mws / p.samplingRes)
      (p.cameraThreshold / 10) shot.cams shot.rSide hcos hθ hbst
      (hdiag mc.index) k
    rw [hcs] at this
    exact this
  have hdiag2 : ∀ a : Int, w2.val (compact a a) ≤ 1 := by
    intro a
    have := chooseSide_diag_le s.weights mc (shotCount * mws / p.samplingRes)
      (p.cameraThreshold / 10) shot.cams shot.rSide hgm.1 hgm.2.1
      (fun l hl => ⟨(hg l hl).1, (hg l hl).2.1⟩) hdiag a
    rw [hcs] at this
    exact this
  split_ifs at h with hd
  · rw [Option.some.injEq] at h
    subst h
    refine ⟨⟨hdiag2, ?_, hcount, hwf⟩, hmono⟩
    intro e he j hj
    exact le_trans (hvotes e he j hj) (hmono _)
  · rw [Option.some.injEq] at h
    subst h
    have hacc := chooseSide_accepted _ _ _ _ _ _ _ _ hcs hd
    have hfresh : ∀ e ∈ s.chosen, e.1 = mc.index → sl.index ∉ e.2 := by
      intro e he hem hj
      have h1 := hvotes e he sl.index hj
      rw [hem] at h1
      exact absurd h1 (not_le.mpr hacc.2.2.1)
    refine ⟨⟨hdiag2, ?_, ?_, ?_⟩, hmono⟩
    · intro e' he' j hj
      rcases insertPair_mem _ _ _ _ he' with hold | hnew | ⟨s0, hext, hs0⟩
      · exact le_trans (hvotes e' hold j hj) (hmono _)
      · subst hnew
        simp only [List.mem_singleton] at hj
        subst hj
        exact hacc.2.2.2.1
      · subst hext
        simp only at hj
        rcases List.mem_append.mp hj with hj0 | hj1
        · exact le_trans (hvotes _ hs0 j hj0) (hmono _)
        · simp only [List.mem_singleton] at hj1
          subst hj1
          exact hacc.2.2.2.1
    · simp only
      rw [insertPair_count _ _ _ hfresh, hcount]
    · intro e' he'
      rcases insertPair_mem _ _ _ _ he' with hold | hnew | ⟨s0, hext, hs0⟩
      · exact hwf e' hold
      · subst hnew
        constructor
        · intro j hj
          simp only [List.mem_singleton] at hj
          subst hj
          exact (hacc.2.1).symm
        · exact List.nodup_singleton _
      · subst hext
        have hw0 := hwf _ hs0
        have hnotin : sl.index ∉ s0 := by
          intro hj
          have h1 := hvotes _ hs0 sl.index hj
          exact absurd h1 (not_le.mpr hacc.2.2.1)
        constructor
        · intro j hj
          simp only at hj ⊢
          rcases List.mem_append.mp hj with hj0 | hj1
          · exact hw0.1 j hj0
          · simp only [List.mem_singleton] at hj1
            subst hj1
            exact (hacc.2.1).symm
        · simp only
          rw [← List.concat_eq_append]
          exact List.Nodup.concat hnotin hw0.2


/-- Helper: a run from a dead state stays dead. -/
theorem runFrom_none_aux (p : RunParams) (shots : List Shot) :
    shots.foldl (fun os sh => os.bind (fun st => runStep p st sh))
      (none : Option RunState) = none := by
  induction shots with
  | nil => rfl
  | cons sh rest ih => simpa using ih

/-- Helper: unfolding one step of a run. -/
theorem runFrom_cons (p : RunParams) (s : RunState) (sh : Shot)
    (rest : List Shot) :
    runFrom p s (sh :: rest) =
      match runStep p s sh with
      | some s1 => runFrom p s1 rest
      | none => none := by
  unfold runFrom
  rw [List.foldl_cons]
  have hbind : (some s).bind (fun st => runStep p st sh) = runStep p s sh := rfl
  rw [hbind]
  rcases runStep p s sh with _ | s1
  · simpa using runFrom_none_aux p rest
  · rfl

/-- Helper: splitting a run at a prefix. -/
theorem runFrom_append (p : RunParams) (l1 l2 : List Shot) (s : RunState) :
    runFrom p s (l1 ++ l2) =
      match runFrom p s l1 with
      | some s1 => runFrom p s1 l2
      | none => none := by
  induction l1 generalizing s with
  | nil => rfl
  | cons sh rest ih =>
    rw [List.cons_append, runFrom_cons, runFrom_cons]
    rcases runStep p s sh with _ | s1
    · simp
    · exact ih s1

/-- Helper: a completed run preserves the invariant and vote
monotonicity from any invariant start state. -/
theorem runFrom_inv (p : RunParams) (hp : GoodParams p) :
    ∀ (shots : List Shot) (s s' : RunState),
      (∀ sh ∈ shots, GoodShot sh) → Inv s →
      runFrom p s shots = some s' →
      Inv s' ∧ (∀ k, s.weights.val k ≤ s'.weights.val k) := by
  intro shots
  induction shots with
  | nil =>
    intro s s' _ hinv h
    rw [show runFrom p s [] = some s from rfl, Option.some.injEq] at h
    subst h
    exact ⟨hinv, fun k => le_rfl⟩
  | cons sh rest ih =>
    intro s s' hgood hinv h
    rw [runFrom_cons] at h
    rcases hst : runStep p s sh with _ | s1
    · rw [hst] at h; simp at h
    · rw [hst] at h
      have hstep := runStep_inv p hp s sh (hgood sh (List.mem_cons_self sh rest))
        ⟨hinv.1, hinv.2.1, hinv.2.2.1, hinv.2.2.2⟩ s1 hst
      have hrest := ih s1 s'
        (fun x hx => hgood x (List.mem_cons_of_mem sh hx)) hstep.1 h
      exact ⟨hrest.1, fun k => le_trans (hstep.2 k) (hrest.2 k)⟩

/-- Helper: the initial run state satisfies the invariant. -/
theorem initState_inv : Inv initState := by
  refine ⟨?_, ?_, rfl, ?_⟩
  · intro a
    norm_num [initState, WTable.empty]
  · intro e he
    simp [initState] at he
  · intro e he
    simp [initState] at he


/-- C7: in every bundle table produced by `chooseCameras`, every
accepted pair has main index ≠ side index, and no main camera's side
list contains a duplicate. -/
theorem bundle_pairs_wellformed (p : RunParams) (shots : List Shot)
    (c : Nat) (t : List (Int × List Int))
    (hp : GoodParams p) (hs : ∀ sh ∈ shots, GoodShot sh)
    (h : chooseCameras p shots = some (c, t)) :
    ∀ e ∈ t, (∀ j ∈ e.2, e.1 ≠ j) ∧ e.2.Nodup := by
  unfold chooseCameras at h
  rcases hrun : runShots p shots with _ | s
  · rw [hrun] at h
    simp at h
  · rw [hrun] at h
    simp only [Option.map_some', Option.some.injEq, Prod.mk.injEq] at h
    have hinv := runFrom_inv p hp shots initState s hs initState_inv hrun
    intro e he
    have hmem : e ∈ s.chosen := by
      rw [← h.2] at he
      exact (List.mergeSort_perm s.chosen _).mem_iff.mp he
    exact hinv.1.2.2.2 e hmem

/-- Witness for `bundle_pairs_wellformed`: a one-shot run that accepts
the pair (0, 1). -/
theorem bundle_pairs_wellformed_witness :
    ((0 : Int) ≠ (1 : Int)) ∧ ([(1 : Int)]).Nodup := by
  have happ := bundle_pairs_wellformed runParamsW [shotW] 1 [(0, [1])]
    (by norm_num [GoodParams, runParamsW])
    (by
      intro sh hsh
      simp only [List.mem_singleton] at hsh
      subst hsh
      intro l hl
      simp only [shotW, List.mem_cons, List.mem_singleton] at hl
      rcases hl with rfl | rfl | h
      · norm_num [GoodLabel, mainCam0]
      · norm_num [GoodLabel, sideCam1]
      · simp at h)
    (by
      norm_num [chooseCameras, runShots, runFrom, runStep, initState,
        List.foldl, shotW, runParamsW, chooseMain, mainCum, mainOutSum,
        mainBaseWeight, mainBoostedWeight, mainCam0, sideCam1, pow2, cumSums,
        cumFrom, bisect, List.findIdx?, WTable.empty, List.getLastD, compact,
        chooseSide, sideCum, sideLabels, sideActualWeightSum, sideBoostedWeight,
        sideBaseWeight, focal, shotCount, WTable.touch, WTable.setv, dummyLabel,
        insertPair, myFindNV, myFindI, sortTable, List.mergeSort])
  have hone := happ (0, [1]) (List.mem_singleton.mpr rfl)
  exact ⟨hone.1 1 (List.mem_singleton.mpr rfl), hone.2⟩

/-- C10: the accepted-pair count returned by `chooseCameras` equals the
total number of side-camera entries over all main entries of the final
bundle table. -/
theorem count_matches_table (p : RunParams) (shots : List Shot)
    (c : Nat) (t : List (Int × List Int))
    (hp : GoodParams p) (hs : ∀ sh ∈ shots, GoodShot sh)
    (h : chooseCameras p shots = some (c, t)) :
    c = (t.map (fun e => e.2.length)).sum := by
  unfold chooseCameras at h
  rcases hrun : runShots p shots with _ | s
  · rw [hrun] at h
    simp at h
  · rw [hrun] at h
    simp only [Option.map_some', Option.some.injEq, Prod.mk.injEq] at h
    have hinv := runFrom_inv p hp shots initState s hs initState_inv hrun
    rw [← h.1, ← h.2]
    rw [hinv.1.2.2.1]
    exact (((List.mergeSort_perm s.chosen _).map _).sum_eq).symm

/-- Witness for `count_matches_table`: the same one-shot accepting run. -/
theorem count_matches_table_witness :
    (1 : Nat) = ([((0 : Int), [(1 : Int)])].map (fun e => e.2.length)).sum :=
  count_matches_table runParamsW [shotW] 1 [(0, [1])]
    (by norm_num [GoodParams, runParamsW])
    (by
      intro sh hsh
      simp only [List.mem_singleton] at hsh
      subst hsh
      intro l hl
      simp only [shotW, List.mem_cons, List.mem_singleton] at hl
      rcases hl with rfl | rfl | h
      · norm_num [GoodLabel, mainCam0]
      · norm_num [GoodLabel, sideCam1]
      · simp at h)
    (by
      norm_num [chooseCameras, runShots, runFrom, runStep, initState,
        List.foldl, shotW, runParamsW, chooseMain, mainCum, mainOutSum,
        mainBaseWeight, mainBoostedWeight, mainCam0, sideCam1, pow2, cumSums,
        cumFrom, bisect, List.findIdx?, WTable.empty, List.getLastD, compact,
        chooseSide, sideCum, sideLabels, sideActualWeightSum, sideBoostedWeight,
        sideBaseWeight, focal, shotCount, WTable.touch, WTable.setv, dummyLabel,
        insertPair, myFindNV, myFindI, sortTable, List.mergeSort])


/-- Helper: within one loop iteration, a draw is accepted for the pair
`(i, j)` exactly when that pair's vote crosses from below 1 to at
least 1 at this very step. -/
theorem step_cross_iff (p : RunParams) (s : RunState)
    (shot : Shot) (hg : GoodShot shot)
    (s' : RunState) (h : runStep p s shot = some s')
    (i j : Int) (hi0 : 0 ≤ i) (hi : i < 65536) (hj0 : 0 ≤ j)
    (hj : j < 65536) (hij : i ≠ j) :
    acceptedPair p s shot = some (i, j) ↔
      (s.weights.val (compact i j) < 1 ∧
       1 ≤ s'.weights.val (compact i j)) := by
  unfold runStep at h
  unfold acceptedPair
  split_ifs at h ⊢ with hlen
  case neg =>
    rw [Option.some.injEq] at h
    subst h
    constructor
    · intro hfalse
      simp at hfalse
    · rintro ⟨h1, h2⟩
      exact absurd (lt_of_lt_of_le h1 h2) (lt_irrefl _)
  rcases hcm : chooseMain s.weights shot.cams p.cameraThreshold shot.rMain
    with ⟨mo, mws⟩
  rw [hcm] at h
  cases mo with
  | none => simp at h
  | some mc =>
  dsimp only at h ⊢
  rcases hcs : chooseSide s.weights mc (shotCount * mws / p.samplingRes)
      (p.cameraThreshold / 10) shot.cams shot.rSide with ⟨so, w2⟩
  rw [hcs] at h
  cases so with
  | none => simp at h
  | some sl =>
  dsimp only at h ⊢
  have hmc := chooseMain_some _ _ _ _ _ _ hcm
  have hgm := hg mc hmc.1
  split_ifs at h ⊢ with hd
  · rw [Option.some.injEq] at h
    subst h
    constructor
    · intro hfalse
      simp at hfalse
    · rintro ⟨h1, h2⟩
      exact chooseSide_dummy_no_cross _ _ _ _ _ _ _ _ hcs hd
        (fun l hl => (hg l hl).1) (compact i j)
        (compact_ne_diag mc.index hi0 hi hj0 hj hij) ⟨h1, h2⟩
  · rw [Option.some.injEq] at h
    subst h
    have hacc := chooseSide_accepted _ _ _ _ _ _ _ _ hcs hd
    have hgs := hg sl hacc.1
    constructor
    · intro hpair
      rw [Option.some.injEq, Prod.mk.injEq] at hpair
      rw [← hpair.1, ← hpair.2]
      exact ⟨hacc.2.2.1, hacc.2.2.2.1⟩
    · rintro ⟨h1, h2⟩
      by_cases hkey : compact i j = compact mc.index sl.index
      · have hinj := compact_inj hi0 hi hj0 hj hgm.1 hgm.2.1 hgs.1 hgs.2.1 hkey
        rw [Option.some.injEq, Prod.mk.injEq]
        exact ⟨hinj.1.symm, hinj.2.symm⟩
      · have hfr := hacc.2.2.2.2 (compact i j) hkey
          (compact_ne_diag mc.index hi0 hi hj0 hj hij)
        rw [hfr] at h2
        exact absurd (lt_of_lt_of_le h1 h2) (lt_irrefl _)

/-- C1: within a single `chooseCameras` run (under the configuration
and label well-formedness that any real run satisfies), (a) every vote
in the table is monotonically non-decreasing across draws, (b) a draw
returns the pair `(i, j)` exactly when that pair's accumulated vote
first reaches at least 1 at that draw, and (c) once a pair's vote has
reached 1 it is never returned again for the remainder of the run. -/
theorem vote_discipline (p : RunParams) (pre post : List Shot)
    (s1 s2 : RunState) (hp : GoodParams p)
    (hpre : ∀ sh ∈ pre, GoodShot sh) (hpost : ∀ sh ∈ post, GoodShot sh)
    (h1 : runShots p pre = some s1) (h2 : runFrom p s1 post = some s2) :
    (∀ k, s1.weights.val k ≤ s2.weights.val k) ∧
    (∀ (shot : Shot) (s3 : RunState), GoodShot shot →
      runStep p s2 shot = some s3 →
      ∀ i j : Int, 0 ≤ i → i < 65536 → 0 ≤ j → j < 65536 → i ≠ j →
        (acceptedPair p s2 shot = some (i, j) ↔
          (s2.weights.val (compact i j) < 1 ∧
           1 ≤ s3.weights.val (compact i j)))) ∧
    (∀ (shot : Shot) (s3 : RunState), GoodShot shot →
      runStep p s2 shot = some s3 →
      ∀ i j : Int, 0 ≤ i → i < 65536 → 0 ≤ j → j < 65536 → i ≠ j →
        1 ≤ s1.weights.val (compact i j) →
        acceptedPair p s2 shot ≠ some (i, j)) := by
  have hinv1 := runFrom_inv p hp pre initState s1 hpre initState_inv h1
  have hinv2 := runFrom_inv p hp post s1 s2 hpost hinv1.1 h2
  refine ⟨hinv2.2, ?_, ?_⟩
  · intro shot s3 hgs hstep i j hi0 hi hj0 hj hij
    exact step_cross_iff p s2 shot hgs s3 hstep i j hi0 hi hj0 hj hij
  · intro shot s3 hgs hstep i j hi0 hi hj0 hj hij hge hacc
    have hiff := step_cross_iff p s2 shot hgs s3 hstep i j hi0 hi hj0 hj hij
    have hcross := hiff.mp hacc
    have hle : 1 ≤ s2.weights.val (compact i j) := le_trans hge (hinv2.2 _)
    exact absurd hcross.1 (not_lt.mpr hle)

/-- Witness for `vote_discipline`: the empty run with the witness
parameters. -/
theorem vote_discipline_witness :
    initState.weights.val (compact 0 1) ≤
      initState.weights.val (compact 0 1) :=
  (vote_discipline runParamsW [] [] initState initState
    (by norm_num [GoodParams, runParamsW])
    (by intro sh hsh; simp at hsh)
    (by intro sh hsh; simp at hsh)
    rfl rfl).1 (compact 0 1)

end MeshRecon
